import Mathlib

/-!
Verification development for the FunctionGemma toy tool-call repository.

Part 1 embeds the tool-call codec (`parseToolCall`, `hasToolCall`,
`extractNonToolText`, `executeToolCall`, `processResponse`) as pure Lean
functions over `List Char` / `String`, translated from the TypeScript source.
JavaScript string/regex behaviour is modelled explicitly:
  - the decode regex is a scan for the leftmost position where the literal
    pieces match, with `\w+` and `[^}]*` being maximal runs;
  - `String.prototype.trim` removes JavaScript whitespace (including the
    Unicode spaces and line separators) from both ends;
  - `.*?` in the span-removal regex does not cross line terminators and is
    lazy (the span stops at the nearest end marker);
  - `replace(/pat/g, "")` removes non-overlapping occurrences left to right;
  - a JS object used as a string map is an insertion-ordered association
    list where assignment overwrites in place.

Part 2 embeds the model lifecycle state machine from the LLM context
provider: the observable state is (status, downloadProgress, error message,
inference handle), and each operation is a state transformer; the outcomes
of the external collaborators (file system, download, inference engine) are
supplied as explicit environment parameters.
-/

/-! ### Wire-format markers and character classes -/

def startMarker : List Char := "<start_function_call>".toList

def endMarker : List Char := "<end_function_call>".toList

/-- The literal part of the decode regex before the function name. -/
def callHead : List Char := "<start_function_call>call:".toList

def escOpen : List Char := "<escape>".toList

def escClose : List Char := "</escape>".toList

/-- JavaScript `\w` (no unicode flag): ASCII letters, digits, underscore. -/
def isWordChar (c : Char) : Bool := c.isAlphanum || c == '_'

/-- JavaScript line terminators, which `.` does not match. -/
def lineTerm (c : Char) : Bool :=
  c == '\n' || c == '\r' || c == ' ' || c == ' '

/-- Characters removed by JavaScript `String.prototype.trim`. -/
def isJsWhitespace (c : Char) : Bool :=
  c == ' ' || c == '\t' || c == '\n' || c == '\r' || c == '\x0b' || c == '\x0c' ||
  c == ' ' || c == '﻿' || c == ' ' ||
  ((' ' ≤ c) && (c ≤ ' ')) ||
  c == ' ' || c == ' ' || c == ' ' || c == ' ' || c == '　'

/-- JavaScript `s.trim()` on a character list. -/
def jsTrim (cs : List Char) : List Char :=
  ((cs.dropWhile isJsWhitespace).reverse.dropWhile isJsWhitespace).reverse

/-- Does `pat` occur as a contiguous substring? (JS `String.includes`.) -/
def containsSub (pat : List Char) : List Char → Bool
  | [] => pat.isEmpty
  | c :: rest => pat.isPrefixOf (c :: rest) || containsSub pat rest

/-! ### Decoding (`parseToolCall`) -/

/-- Match the decode regex
`<start_function_call>call:(\w+)\{([^}]*)\}<end_function_call>`
anchored at the head of `cs`, returning the two capture groups.
`\w+` and `[^}]*` are maximal runs (no viable regex backtracking exists,
since the following literal characters are outside the repeated classes). -/
def matchCallAt (cs : List Char) : Option (List Char × List Char) :=
  if callHead.isPrefixOf cs then
    let rest := cs.drop callHead.length
    let name := rest.takeWhile isWordChar
    if name.isEmpty then none
    else
      match rest.drop name.length with
      | '{' :: rest2 =>
        let params := rest2.takeWhile (fun c => !(c == '}'))
        match rest2.drop params.length with
        | '}' :: rest3 => if endMarker.isPrefixOf rest3 then some (name, params) else none
        | _ => none
      | _ => none
  else none

/-- Leftmost regex match in the whole text (JS `String.match` without `/g`). -/
def findCallMatch : List Char → Option (List Char × List Char)
  | [] => none
  | c :: rest =>
    match matchCallAt (c :: rest) with
    | some r => some r
    | none => findCallMatch rest

/-- JS `split(sep)` for a single-character separator. -/
def splitOnChar (sep : Char) : List Char → List (List Char)
  | [] => [[]]
  | c :: rest =>
    if c == sep then [] :: splitOnChar sep rest
    else
      match splitOnChar sep rest with
      | [] => [[c]]
      | s :: ss => (c :: s) :: ss

/-- Split a segment at its first `:` (JS `indexOf(':')` plus substrings);
`none` when the segment has no colon. -/
def splitFirstColon (cs : List Char) : Option (List Char × List Char) :=
  match cs.dropWhile (fun c => !(c == ':')) with
  | [] => none
  | _ :: after => some (cs.takeWhile (fun c => !(c == ':')), after)

/-- Fuel-indexed worker for `removeAll`; the fuel only serves to make the
recursion structural (each step strictly shrinks the text, so a fuel equal
to the text length is always enough). -/
def removeAllF (pat : List Char) : Nat → List Char → List Char
  | _, [] => []
  | 0, cs => cs
  | fuel + 1, c :: rest =>
    if pat.isPrefixOf (c :: rest) ∧ pat ≠ [] then
      removeAllF pat fuel ((c :: rest).drop pat.length)
    else c :: removeAllF pat fuel rest

/-- JS `replace(/pat/g, "")`: delete non-overlapping occurrences of `pat`,
scanning left to right. -/
def removeAll (pat cs : List Char) : List Char :=
  removeAllF pat cs.length cs

/-- The JS-object string map: insertion-ordered, assignment overwrites. -/
def recordSet (r : List (String × String)) (k v : String) : List (String × String) :=
  if r.any (fun p => p.1 == k) then
    r.map (fun p => if p.1 == k then (k, v) else p)
  else r ++ [(k, v)]

def recordGet : List (String × String) → String → Option String
  | [], _ => none
  | p :: rest, k => if p.1 == k then some p.2 else recordGet rest k

/-- Value post-processing in the decoder: trim, then strip `<escape>` tags
(both spellings, in the source's order). -/
def segValue (cs : List Char) : List Char :=
  removeAll escClose (removeAll escOpen (jsTrim cs))

/-- One iteration of the parameter-parsing loop of `parseToolCall`: skip the
segment if it has no colon, trim the key, post-process the value, and assign
into the record unless the trimmed key is empty. -/
def assignParam (parameters : List (String × String)) (pair : List Char) :
    List (String × String) :=
  match splitFirstColon pair with
  | none => parameters
  | some (k, v) =>
    let key := jsTrim k
    let value := segValue v
    if key.isEmpty then parameters
    else recordSet parameters (String.mk key) (String.mk value)

/-- The parameter-parsing loop of `parseToolCall`: split the body on commas
and run `assignParam` over the segments. -/
def parseParams (paramsString : List Char) : List (String × String) :=
  (splitOnChar ',' paramsString).foldl assignParam []

structure ToolCall where
  name : String
  parameters : List (String × String)
deriving Repr, DecidableEq

/-- `parseToolCall` from the source: first regex match, then the parameter
loop (the body string is falsy when empty, in which case the loop is skipped
and the parameter record stays empty). -/
def parseToolCall (response : String) : Option ToolCall :=
  match findCallMatch response.toList with
  | none => none
  | some (name, paramsString) =>
    some { name := String.mk name
           parameters := if paramsString.isEmpty then [] else parseParams paramsString }

/-- `hasToolCall` from the source: cheap marker pre-check. -/
def hasToolCall (response : String) : Bool :=
  containsSub startMarker response.toList

/-! ### Span removal (`extractNonToolText`) -/

/-- The lazy tail search of `/<start_function_call>.*?<end_function_call>/`:
starting just after a start marker, find the nearest end marker reachable
without crossing a line terminator; return the remaining text after it. -/
def findEnd : List Char → Option (List Char)
  | [] => none
  | c :: rest =>
    if endMarker.isPrefixOf (c :: rest) then some ((c :: rest).drop endMarker.length)
    else if lineTerm c then none
    else findEnd rest

theorem findEnd_length (cs r : List Char) (h : findEnd cs = some r) :
    r.length ≤ cs.length := by
  induction cs with
  | nil => simp [findEnd] at h
  | cons c rest ih =>
    simp only [findEnd] at h
    split at h
    · cases h
      simp only [List.length_drop]
      omega
    · split at h
      · cases h
      · have := ih h
        simp only [List.length_cons]
        omega

/-- Fuel-indexed worker for `removeCallSpans`; as with `removeAllF`, the
fuel only makes the recursion structural (each step strictly shrinks the
text, by `findEnd_length`). -/
def removeCallSpansF : Nat → List Char → List Char
  | _, [] => []
  | 0, cs => cs
  | fuel + 1, c :: rest =>
    if startMarker.isPrefixOf (c :: rest) then
      match findEnd ((c :: rest).drop startMarker.length) with
      | some rest2 => removeCallSpansF fuel rest2
      | none => c :: removeCallSpansF fuel rest
    else c :: removeCallSpansF fuel rest

/-- Global removal of matched spans (JS `replace(/..../g, '')`): scan left to
right; at a start marker whose lazy tail search succeeds, delete through the
end marker and continue after it; otherwise keep the character. -/
def removeCallSpans (cs : List Char) : List Char :=
  removeCallSpansF cs.length cs

/-- Is there any matched span (i.e. would `removeCallSpans` delete anything)? -/
def hasSpanMatch : List Char → Bool
  | [] => false
  | c :: rest =>
    (startMarker.isPrefixOf (c :: rest) && (findEnd ((c :: rest).drop startMarker.length)).isSome)
      || hasSpanMatch rest

/-- `extractNonToolText` from the source: remove all spans, then trim. -/
def extractNonToolText (response : String) : String :=
  String.mk (jsTrim (removeCallSpans response.toList))

/-! ### Dispatch (`executeToolCall`, `processResponse`) -/

structure ToolExecutionResult where
  success : Bool
  message : String
  action : Option String
deriving Repr, DecidableEq

/-- The single injected effect callback invoked by a successful dispatch. -/
inductive Effect where
  | themeChange (theme : String)
  | notification (title message ty : String)
  | navigate (screen : String)
deriving Repr, DecidableEq

/-- `executeToolCall` from the source. A JS property read of a missing key
gives `undefined`; both `undefined` and `""` are falsy, which is modelled by
`(recordGet ...).getD ""` compared with `""`. The returned `Option Effect`
records which injected callback fires (and with which arguments). -/
def executeToolCall (toolCall : ToolCall) : ToolExecutionResult × Option Effect :=
  if toolCall.name = "change_theme" then
    let theme := (recordGet toolCall.parameters "theme").getD ""
    if theme = "" then
      ({ success := false, message := "Missing theme parameter", action := none }, none)
    else
      ({ success := true
         message := "Theme changed to " ++ theme
         action := some ("change_theme(" ++ theme ++ ")") },
       some (Effect.themeChange theme))
  else if toolCall.name = "show_notification" then
    let message := (recordGet toolCall.parameters "message").getD ""
    let t0 := (recordGet toolCall.parameters "title").getD ""
    let title := if t0 = "" then "Notification" else t0
    let y0 := (recordGet toolCall.parameters "type").getD ""
    let ty := if y0 = "" then "info" else y0
    if message = "" then
      ({ success := false, message := "Missing message parameter", action := none }, none)
    else
      ({ success := true
         message := "Notification shown: " ++ message
         action := some ("show_notification(\"" ++ title ++ "\", \"" ++ message ++ "\", \"" ++ ty ++ "\")") },
       some (Effect.notification title message ty))
  else if toolCall.name = "navigate_to_screen" then
    let screen := (recordGet toolCall.parameters "screen").getD ""
    if screen = "" then
      ({ success := false, message := "Missing screen parameter", action := none }, none)
    else
      ({ success := true
         message := "Navigated to " ++ screen
         action := some ("navigate_to_screen(" ++ screen ++ ")") },
       some (Effect.navigate screen))
  else
    ({ success := false, message := "Unknown function: " ++ toolCall.name, action := none }, none)

structure ProcessedResponse where
  toolCall : Option ToolCall
  result : Option ToolExecutionResult
  textResponse : String
  effect : Option Effect
deriving Repr, DecidableEq

/-- `processResponse` from the source: decode, strip spans, and dispatch when
a call was decoded; otherwise return the raw response text as prose. -/
def processResponse (response : String) : ProcessedResponse :=
  let toolCall := parseToolCall response
  let textResponse := extractNonToolText response
  match toolCall with
  | some tc =>
    let r := executeToolCall tc
    { toolCall := some tc, result := some r.1, textResponse := textResponse, effect := r.2 }
  | none =>
    { toolCall := none, result := none, textResponse := response, effect := none }

/-! ### Model lifecycle state machine (`LLMContext`) -/

inductive ModelStatus where
  | idle | asking | downloading | downloaded | loading | ready | error
deriving Repr, DecidableEq

/-- Observable state of the provider: React state plus the ref holding the
inference handle (`llamaContextRef`). Handles are identified by a `Nat`. -/
structure LLMState where
  status : ModelStatus
  downloadProgress : ℚ
  errorMsg : Option String
  llamaContext : Option Nat
deriving Repr, DecidableEq

def initialState : LLMState :=
  { status := .idle, downloadProgress := 0, errorMsg := none, llamaContext := none }

/-- Outcome of the external download collaborator for one `confirmDownload`. -/
structure DownloadEnv where
  fileExists : Bool
  fileSize : Nat
  downloadOk : Bool
  progressEvents : List ℚ
  errText : String
deriving Repr, DecidableEq

/-- Outcome of the file check and inference engine for one `loadModel`. -/
structure LoadEnv where
  fileExists : Bool
  initResult : Option Nat
  errText : String
deriving Repr, DecidableEq

def askToDownload (s : LLMState) : LLMState :=
  { s with status := .asking, errorMsg := none }

def cancelDownload (s : LLMState) : LLMState :=
  { s with status := .idle }

/-- `confirmDownload`: enter `downloading` (clearing error, zeroing progress);
skip straight to `downloaded` when the file already exists above the size
sanity threshold; otherwise run the download, whose progress callbacks
overwrite the stored fraction (last write wins), ending in `downloaded` with
progress pinned to 1, or in `error` with the failure message. -/
def confirmDownload (env : DownloadEnv) (s : LLMState) : LLMState :=
  let s1 := { s with status := .downloading, errorMsg := none, downloadProgress := 0 }
  if env.fileExists && decide (env.fileSize > 100000000) then
    { s1 with status := .downloaded, downloadProgress := 1 }
  else
    let s2 := { s1 with downloadProgress := env.progressEvents.foldl (fun _ p => p) s1.downloadProgress }
    if env.downloadOk then { s2 with status := .downloaded, downloadProgress := 1 }
    else { s2 with errorMsg := some env.errText, status := .error }

/-- `loadModel`: enter `loading` (clearing error); fail into `error` when the
file is missing (the handle is left untouched); otherwise release any held
handle, then either install the new handle and become `ready`, or fail into
`error` with the engine's message. -/
def loadModel (env : LoadEnv) (s : LLMState) : LLMState :=
  let s1 := { s with status := .loading, errorMsg := none }
  if !env.fileExists then
    { s1 with errorMsg := some "Model file not found. Please download first.", status := .error }
  else
    let s2 := { s1 with llamaContext := none }
    match env.initResult with
    | some h => { s2 with llamaContext := some h, status := .ready }
    | none => { s2 with errorMsg := some env.errText, status := .error }

/-- `generateResponse` either throws (when no handle is held) or returns the
completion text; in both cases the observable lifecycle state is unchanged. -/
def generateResponse (s : LLMState) : LLMState := s

/-- `releaseModel`: release all engine resources, drop the handle, and set
status to `downloaded` (the release call is modelled as succeeding). -/
def releaseModel (s : LLMState) : LLMState :=
  { s with llamaContext := none, status := .downloaded }

inductive LifecycleOp where
  | askToDownload
  | cancelDownload
  | confirmDownload (env : DownloadEnv)
  | loadModel (env : LoadEnv)
  | generateResponse
  | releaseModel
deriving Repr, DecidableEq

def step (s : LLMState) : LifecycleOp → LLMState
  | .askToDownload => askToDownload s
  | .cancelDownload => cancelDownload s
  | .confirmDownload env => confirmDownload env s
  | .loadModel env => loadModel env s
  | .generateResponse => generateResponse s
  | .releaseModel => releaseModel s

def run (s : LLMState) (ops : List LifecycleOp) : LLMState :=
  ops.foldl step s

/-- The spec's lifecycle invariant: the handle exists iff status is `ready`. -/
def handleInv (s : LLMState) : Prop :=
  s.llamaContext.isSome ↔ s.status = ModelStatus.ready

instance (s : LLMState) : Decidable (handleInv s) := by
  unfold handleInv; infer_instance

/-! ### Helper lemmas -/

theorem findCallMatch_eq_none_iff (cs : List Char) :
    findCallMatch cs = none ↔ ∀ i, matchCallAt (cs.drop i) = none := by
  induction cs with
  | nil =>
    simp only [findCallMatch, List.drop_nil, true_iff]
    intro i
    decide
  | cons c rest ih =>
    constructor
    · intro h i
      rw [findCallMatch] at h
      cases hm : matchCallAt (c :: rest) with
      | some r => rw [hm] at h; cases h
      | none =>
        rw [hm] at h
        cases i with
        | zero => simpa using hm
        | succ j => exact (ih.mp h) j
    · intro h
      rw [findCallMatch]
      have h0 := h 0
      simp only [List.drop_zero] at h0
      rw [h0]
      exact ih.mpr fun i => by simpa using h (i + 1)

/-! ### Claims C6, C7, C9 (dispatch) -/

/-- Claim C6: the input
`<start_function_call>call:show_notification{message:<escape>Hi<escape>}<end_function_call>`
decodes to a call named `show_notification` with parameter `message = "Hi"`,
and dispatching it yields a successful outcome with message
`"Notification shown: Hi"`, invoking the notification callback with default
title `"Notification"` and default type `"info"`. -/
theorem claim6_notification_scenario :
    parseToolCall "<start_function_call>call:show_notification\x7bmessage:<escape>Hi<escape>\x7d<end_function_call>" =
      some { name := "show_notification", parameters := [("message", "Hi")] } ∧
    executeToolCall { name := "show_notification", parameters := [("message", "Hi")] } =
      ({ success := true
         message := "Notification shown: Hi"
         action := some "show_notification(\"Notification\", \"Hi\", \"info\")" },
       some (Effect.notification "Notification" "Hi" "info")) := by
  constructor <;> decide

/-- Claim C7: for every decoded call whose name is none of `change_theme`,
`show_notification`, `navigate_to_screen`, dispatch returns a failed outcome
with message `"Unknown function: {name}"` and invokes no effect callback.
(The embedding is a total function, so no exception can be raised: every
outcome is returned as data.) -/
theorem claim7_unknown_function (tc : ToolCall)
    (h1 : tc.name ≠ "change_theme")
    (h2 : tc.name ≠ "show_notification")
    (h3 : tc.name ≠ "navigate_to_screen") :
    executeToolCall tc =
      ({ success := false, message := "Unknown function: " ++ tc.name, action := none }, none) := by
  simp [executeToolCall, h1, h2, h3]

theorem claim7_unknown_function_witness :
    executeToolCall { name := "delete_everything", parameters := [] } =
      ({ success := false, message := "Unknown function: delete_everything", action := none }, none) :=
  claim7_unknown_function { name := "delete_everything", parameters := [] }
    (by decide) (by decide) (by decide)

/-- Claim C9: at dispatch time a required parameter decoded as the empty
string is treated exactly like an absent one (`""` is falsy in JS):
`change_theme`/`show_notification`/`navigate_to_screen` fail with their
"Missing … parameter" messages, and optional `title`/`type` equal to `""`
are replaced by the defaults `"Notification"` and `"info"`. -/
theorem claim9_empty_string_like_missing (r : List (String × String)) :
    (recordGet r "theme" = some "" →
      executeToolCall { name := "change_theme", parameters := r } =
        ({ success := false, message := "Missing theme parameter", action := none }, none)) ∧
    (recordGet r "message" = some "" →
      executeToolCall { name := "show_notification", parameters := r } =
        ({ success := false, message := "Missing message parameter", action := none }, none)) ∧
    (recordGet r "screen" = some "" →
      executeToolCall { name := "navigate_to_screen", parameters := r } =
        ({ success := false, message := "Missing screen parameter", action := none }, none)) ∧
    (∀ m, recordGet r "message" = some m → m ≠ "" →
      recordGet r "title" = some "" → recordGet r "type" = some "" →
      executeToolCall { name := "show_notification", parameters := r } =
        ({ success := true
           message := "Notification shown: " ++ m
           action := some ("show_notification(\"Notification\", \"" ++ m ++ "\", \"info\")") },
         some (Effect.notification "Notification" m "info"))) := by
  have hn1 : ("show_notification" : String) ≠ "change_theme" := by decide
  have hn2 : ("navigate_to_screen" : String) ≠ "change_theme" := by decide
  have hn3 : ("navigate_to_screen" : String) ≠ "show_notification" := by decide
  refine ⟨?_, ?_, ?_, ?_⟩
  · intro h
    simp [executeToolCall, h]
  · intro h
    simp [executeToolCall, h, hn1]
  · intro h
    simp [executeToolCall, h, hn1, hn2, hn3]
  · intro m hm hne ht hy
    simp [executeToolCall, hm, ht, hy, hn1, hne, String.append_assoc]

theorem claim9_empty_string_like_missing_witness :
    executeToolCall { name := "change_theme", parameters := [("theme", "")] } =
      ({ success := false, message := "Missing theme parameter", action := none }, none) ∧
    executeToolCall { name := "show_notification", parameters := [("message", "Hi"), ("title", ""), ("type", "")] } =
      ({ success := true
         message := "Notification shown: Hi"
         action := some "show_notification(\"Notification\", \"Hi\", \"info\")" },
       some (Effect.notification "Notification" "Hi" "info")) :=
  ⟨(claim9_empty_string_like_missing [("theme", "")]).1 rfl,
   (claim9_empty_string_like_missing [("message", "Hi"), ("title", ""), ("type", "")]).2.2.2
     "Hi" rfl (by decide) rfl rfl⟩

/-! ### Claim C3 (malformed call falls back to prose) -/

/-- Claim C3: a response that contains the literal `<start_function_call>`
marker but no substring matching the full call grammar (no position at which
the decode regex matches) decodes to no call, and processing it presents the
raw text as prose: the returned record has no call, no dispatch result, and
`textResponse` equal to the unmodified input. -/
theorem claim3_malformed_falls_back (response : String)
    (hmarker : hasToolCall response = true)
    (hnomatch : ∀ i, matchCallAt (response.toList.drop i) = none) :
    parseToolCall response = none ∧
    processResponse response =
      { toolCall := none, result := none, textResponse := response, effect := none } := by
  have _ := hmarker
  have hfind : findCallMatch response.data = none :=
    (findCallMatch_eq_none_iff response.data).mpr (fun i => hnomatch i)
  refine ⟨?_, ?_⟩
  · simp [parseToolCall, hfind]
  · simp [processResponse, parseToolCall, hfind]

theorem claim3_malformed_falls_back_witness :
    parseToolCall "Sure: <start_function_call>call:foo but it never ends" = none ∧
    processResponse "Sure: <start_function_call>call:foo but it never ends" =
      { toolCall := none, result := none
        textResponse := "Sure: <start_function_call>call:foo but it never ends"
        effect := none } :=
  claim3_malformed_falls_back "Sure: <start_function_call>call:foo but it never ends"
    (by decide)
    ((findCallMatch_eq_none_iff _).mp (by decide))

/-! ### Claim C1 (lifecycle handle invariant) -/

/-- The code violates the claim: a download-phase operation invoked while a
handle is held (state `ready`) changes the status but leaves the stale
handle in place. Concretely, after download → load → `askToDownload`, the
status is `asking` yet the handle is still present. -/
theorem claim1_counterexample :
    ¬ handleInv (run initialState
      [LifecycleOp.askToDownload,
       LifecycleOp.confirmDownload ⟨true, 200000000, true, [], "download failed"⟩,
       LifecycleOp.loadModel ⟨true, some 0, "load failed"⟩,
       LifecycleOp.askToDownload]) := by decide

/-- Operations that, when executed in state `ready`, re-establish or keep
the handle invariant: `loadModel` with the model file present (both engine
outcomes), `releaseModel`, and `generateResponse`. The download-phase
operations are excluded: from `ready` they leave the handle stale. -/
def safeFromReady : LifecycleOp → Bool
  | .loadModel env => env.fileExists
  | .releaseModel => true
  | .generateResponse => true
  | _ => false

/-- A trace is safe when, at every step actually executed from state
`ready`, the operation is one of the `safeFromReady` ones. -/
def safeTrace (s : LLMState) : List LifecycleOp → Bool
  | [] => true
  | op :: ops =>
    (!(decide (s.status = ModelStatus.ready)) || safeFromReady op) && safeTrace (step s op) ops

theorem handleInv_step (s : LLMState) (op : LifecycleOp)
    (hinv : handleInv s)
    (hop : s.status = ModelStatus.ready → safeFromReady op = true) :
    handleInv (step s op) := by
  have hctx : s.status ≠ ModelStatus.ready → s.llamaContext.isSome = false := by
    intro hne
    by_cases h : s.llamaContext.isSome
    · exact absurd (hinv.mp h) hne
    · simpa using h
  cases op with
  | askToDownload =>
    have hne : s.status ≠ ModelStatus.ready := fun h => by simpa [safeFromReady] using hop h
    simp [step, askToDownload, handleInv, hctx hne]
  | cancelDownload =>
    have hne : s.status ≠ ModelStatus.ready := fun h => by simpa [safeFromReady] using hop h
    simp [step, cancelDownload, handleInv, hctx hne]
  | confirmDownload env =>
    have hne : s.status ≠ ModelStatus.ready := fun h => by simpa [safeFromReady] using hop h
    simp only [step, confirmDownload]
    split
    · simp [handleInv, hctx hne]
    · split <;> simp [handleInv, hctx hne]
  | loadModel env =>
    simp only [step, loadModel]
    by_cases hf : env.fileExists
    · simp only [hf, Bool.not_true, if_neg]
      cases env.initResult <;> simp [handleInv]
    · have hne : s.status ≠ ModelStatus.ready := by
        intro h
        have := hop h
        simp [safeFromReady, hf] at this
      simp [hf, handleInv, hctx hne]
  | generateResponse =>
    simpa [step, generateResponse] using hinv
  | releaseModel =>
    simp [step, releaseModel, handleInv]

/-- Claim C1 (amended): the invariant "handle present iff status `ready`"
holds after every transition of any sequence of lifecycle operations that
starts in a state satisfying it, provided every operation executed from the
`ready` state is `releaseModel`, `generateResponse`, or `loadModel` with the
model file present (`safeTrace`). Unrestricted sequences violate it, per
`claim1_counterexample`: download-phase operations run from `ready` leave
the stale handle behind. Since `s` and `ops` are universally quantified,
applying the theorem to every prefix of a safe trace gives the invariant
after every intermediate transition as well. -/
theorem claim1_handle_invariant (s : LLMState) (ops : List LifecycleOp)
    (hinv : handleInv s) (hsafe : safeTrace s ops = true) :
    handleInv (run s ops) := by
  induction ops generalizing s with
  | nil => simpa [run] using hinv
  | cons op ops ih =>
    rw [safeTrace, Bool.and_eq_true] at hsafe
    refine ih (step s op) (handleInv_step s op hinv ?_) hsafe.2
    intro hready
    rcases Bool.or_eq_true _ _ |>.mp hsafe.1 with h | h
    · simp [hready] at h
    · exact h

theorem claim1_handle_invariant_witness :
    handleInv (run initialState
      [LifecycleOp.askToDownload,
       LifecycleOp.confirmDownload ⟨true, 200000000, true, [], "download failed"⟩,
       LifecycleOp.loadModel ⟨true, some 7, "load failed"⟩,
       LifecycleOp.generateResponse,
       LifecycleOp.releaseModel]) :=
  claim1_handle_invariant initialState _ (by decide) (by decide)

/-! ### Claim C8 (release semantics) -/

/-- The code violates the claim: `releaseModel` run with no handle held is
not a no-op on the lifecycle state — it unconditionally sets the status to
`downloaded`. From the initial state (status `idle`, no handle) the state
changes. -/
theorem claim8_counterexample : releaseModel initialState ≠ initialState := by decide

/-- Claim C8 (amended): `releaseModel` is idempotent and never fails, but
when no handle is held it is a no-op only if the status is already
`downloaded`; in every case it clears the handle and sets the status to
`downloaded`, leaving the download progress and error message unchanged. -/
theorem claim8_release_idempotent (s : LLMState) :
    releaseModel (releaseModel s) = releaseModel s ∧
    (s.llamaContext = none → s.status = ModelStatus.downloaded → releaseModel s = s) ∧
    (releaseModel s).llamaContext = none ∧
    (releaseModel s).status = ModelStatus.downloaded ∧
    (releaseModel s).downloadProgress = s.downloadProgress ∧
    (releaseModel s).errorMsg = s.errorMsg := by
  refine ⟨rfl, ?_, rfl, rfl, rfl, rfl⟩
  intro h1 h2
  cases s
  simp_all [releaseModel]

theorem claim8_release_idempotent_witness :
    releaseModel { status := ModelStatus.downloaded, downloadProgress := 1,
                   errorMsg := none, llamaContext := none } =
      { status := ModelStatus.downloaded, downloadProgress := 1,
        errorMsg := none, llamaContext := none } :=
  (claim8_release_idempotent _).2.1 rfl rfl

/-! ### Claim C4 (idempotence of extractNonToolText) -/

theorem jsTrim_eq_rdrop (l : List Char) :
    jsTrim l = List.rdropWhile isJsWhitespace (l.dropWhile isJsWhitespace) := rfl

theorem dropWhile_head_false {α : Type} (p : α → Bool) :
    ∀ (l : List α) (c : α) (r : List α), l.dropWhile p = c :: r → p c = false := by
  intro l
  induction l with
  | nil => intro c r h; cases h
  | cons a t ih =>
    intro c r h
    rw [List.dropWhile_cons] at h
    split at h
    · exact ih c r h
    · rename_i hpa
      cases h
      simpa using hpa

theorem jsTrim_idem (l : List Char) : jsTrim (jsTrim l) = jsTrim l := by
  rw [jsTrim_eq_rdrop, jsTrim_eq_rdrop]
  have hfix : (List.rdropWhile isJsWhitespace (l.dropWhile isJsWhitespace)).dropWhile isJsWhitespace
      = List.rdropWhile isJsWhitespace (l.dropWhile isJsWhitespace) := by
    cases hr : List.rdropWhile isJsWhitespace (l.dropWhile isJsWhitespace) with
    | nil => rfl
    | cons c r =>
      obtain ⟨t, ht⟩ := List.rdropWhile_prefix isJsWhitespace (l.dropWhile isJsWhitespace)
      rw [hr] at ht
      have hpc : isJsWhitespace c = false :=
        dropWhile_head_false isJsWhitespace l c (r ++ t) (by rw [← ht]; rfl)
      rw [List.dropWhile_cons, hpc]
      simp
  rw [hfix, List.rdropWhile_idempotent]

theorem removeCallSpansF_of_no_match {cs : List Char} (h : hasSpanMatch cs = false) :
    ∀ fuel, removeCallSpansF fuel cs = cs := by
  induction cs with
  | nil => intro fuel; cases fuel <;> rfl
  | cons c rest ih =>
    rw [hasSpanMatch, Bool.or_eq_false_iff] at h
    intro fuel
    cases fuel with
    | zero => rfl
    | succ fuel =>
      rw [removeCallSpansF]
      by_cases hp : startMarker.isPrefixOf (c :: rest)
      · rw [if_pos hp]
        cases hfe : findEnd ((c :: rest).drop startMarker.length) with
        | some r =>
          exfalso
          have hss := h.1
          rw [hp, Bool.true_and, hfe] at hss
          simp at hss
        | none =>
          exact congrArg (c :: ·) (ih h.2 fuel)
      · rw [if_neg hp]
        exact congrArg (c :: ·) (ih h.2 fuel)

theorem removeCallSpans_of_no_match {cs : List Char} (h : hasSpanMatch cs = false) :
    removeCallSpans cs = cs :=
  removeCallSpansF_of_no_match h _

/-- The code violates the claim: removing a call span can splice the
surrounding text into a brand-new call span, which a second application then
removes. Removal of the inner span of this input yields
`<start_function_call>hello<end_function_call>`, and a second application
removes that too, so the results of one and two applications differ. -/
theorem claim4_counterexample :
    extractNonToolText (extractNonToolText
      "<start<start_function_call>x<end_function_call>_function_call>hello<end_function_call>") ≠
    extractNonToolText
      "<start<start_function_call>x<end_function_call>_function_call>hello<end_function_call>" := by
  decide

/-- Claim C4 (amended): `extractNonToolText` is idempotent on every text
whose first application leaves no removable call span (in particular
whenever the result no longer contains a matched span); in general a single
removal can splice together a new call span, and idempotence fails, per
`claim4_counterexample`. -/
theorem claim4_extract_idempotent (t : String)
    (h : hasSpanMatch (extractNonToolText t).toList = false) :
    extractNonToolText (extractNonToolText t) = extractNonToolText t := by
  have h' : removeCallSpans (extractNonToolText t).toList = (extractNonToolText t).toList :=
    removeCallSpans_of_no_match h
  show String.mk (jsTrim (removeCallSpans (extractNonToolText t).toList)) = extractNonToolText t
  rw [h']
  show String.mk (jsTrim (jsTrim (removeCallSpans t.toList))) = _
  rw [jsTrim_idem]
  rfl

theorem claim4_extract_idempotent_witness :
    extractNonToolText (extractNonToolText
      "hello <start_function_call>x<end_function_call> world") =
    extractNonToolText "hello <start_function_call>x<end_function_call> world" :=
  claim4_extract_idempotent "hello <start_function_call>x<end_function_call> world" (by decide)

/-! ### Claim C5 (parameter-body decoding policy) -/

/-- Spec-side reading of one parameter segment: a segment lacking a colon is
dropped; the key is the part before the first colon, trimmed, dropped when
empty; the value is the part after the first colon with trimming and escape
stripping applied. -/
def segParse (pair : List Char) : Option (String × String) :=
  match splitFirstColon pair with
  | none => none
  | some (k, v) =>
    let key := jsTrim k
    if key.isEmpty then none
    else some (String.mk key, String.mk (segValue v))

/-- Spec-side mapping semantics: the last assignment of a key wins. -/
def lastWins (l : List (String × String)) (k : String) : Option String :=
  (l.reverse.find? (fun p => p.1 == k)).map Prod.snd

theorem assignParam_eq_segParse (acc : List (String × String)) (pair : List Char) :
    assignParam acc pair =
      match segParse pair with
      | none => acc
      | some (k, v) => recordSet acc k v := by
  rw [assignParam, segParse]
  cases splitFirstColon pair with
  | none => rfl
  | some kv =>
    obtain ⟨k, v⟩ := kv
    by_cases h : (jsTrim k).isEmpty <;> simp [h]

theorem recordGet_of_not_any (r : List (String × String)) (k : String)
    (h : r.any (fun p => p.1 == k) = false) : recordGet r k = none := by
  induction r with
  | nil => rfl
  | cons p rest ih =>
    rw [List.any_cons, Bool.or_eq_false_iff] at h
    rw [recordGet, if_neg (by simp [h.1]), ih h.2]

theorem recordGet_append_of_none (r l : List (String × String)) (k : String)
    (h : recordGet r k = none) : recordGet (r ++ l) k = recordGet l k := by
  induction r with
  | nil => rfl
  | cons p rest ih =>
    rw [recordGet] at h
    by_cases hp : (p.1 == k) = true
    · rw [if_pos hp] at h; cases h
    · rw [if_neg hp] at h
      rw [List.cons_append, recordGet, if_neg hp, ih h]

theorem recordGet_map_overwrite (r : List (String × String)) (k v k' : String)
    (h : k' ≠ k) :
    recordGet (r.map (fun p => if p.1 == k then (k, v) else p)) k' = recordGet r k' := by
  induction r with
  | nil => rfl
  | cons p rest ih =>
    rw [List.map_cons, recordGet, recordGet]
    by_cases hp : (p.1 == k) = true
    · have hk : ((k, v).1 == k') = false := by
        simp only [beq_eq_false_iff_ne, ne_eq]
        exact fun hkk => h hkk.symm
      have hp' : (p.1 == k') = false := by
        rw [beq_iff_eq] at hp
        simp only [beq_eq_false_iff_ne, ne_eq, hp]
        exact fun hkk => h hkk.symm
      rw [if_pos hp, if_neg (by simp [hk]), if_neg (by simp [hp']), ih]
    · rw [if_neg hp]
      by_cases hq : (p.1 == k') = true
      · rw [if_pos hq, if_pos hq]
      · rw [if_neg hq, if_neg hq, ih]

theorem recordGet_map_overwrite_self (r : List (String × String)) (k v : String)
    (h : r.any (fun p => p.1 == k) = true) :
    recordGet (r.map (fun p => if p.1 == k then (k, v) else p)) k = some v := by
  induction r with
  | nil => cases h
  | cons p rest ih =>
    rw [List.map_cons, recordGet]
    by_cases hp : (p.1 == k) = true
    · rw [if_pos hp, if_pos (by simp)]
    · have hp' : (p.1 == k) = false := Bool.eq_false_iff.mpr hp
      rw [List.any_cons, hp', Bool.false_or] at h
      rw [if_neg hp, if_neg hp, ih h]

theorem recordGet_append_single_ne (k v k' : String) (h : k' ≠ k) :
    ∀ r : List (String × String), recordGet (r ++ [(k, v)]) k' = recordGet r k' := by
  intro r
  induction r with
  | nil =>
    simp only [List.nil_append, recordGet]
    have hc : (((k, v) : String × String).1 == k') = false := by
      simp only [beq_eq_false_iff_ne, ne_eq]
      exact fun hkk => h hkk.symm
    rw [if_neg (by simp [hc])]
  | cons p rest ih =>
    rw [List.cons_append, recordGet, recordGet, ih]

theorem recordGet_set (r : List (String × String)) (k v k' : String) :
    recordGet (recordSet r k v) k' = if k' = k then some v else recordGet r k' := by
  rw [recordSet]
  by_cases hany : r.any (fun p => p.1 == k) = true
  · rw [if_pos hany]
    by_cases hk : k' = k
    · subst hk
      rw [recordGet_map_overwrite_self r k' v hany, if_pos rfl]
    · rw [recordGet_map_overwrite r k v k' hk, if_neg hk]
  · rw [if_neg hany]
    have hnone : recordGet r k = none :=
      recordGet_of_not_any r k (Bool.eq_false_iff.mpr hany)
    by_cases hk : k' = k
    · subst hk
      rw [recordGet_append_of_none r _ k' hnone, if_pos rfl, recordGet, if_pos (by simp)]
    · rw [recordGet_append_single_ne k v k' hk r, if_neg hk]

theorem foldl_assignParam_lastWins :
    ∀ (segs : List (List Char)) (acc : List (String × String)) (k : String),
      recordGet (segs.foldl assignParam acc) k =
        match (segs.filterMap segParse).reverse.find? (fun p => p.1 == k) with
        | some p => some p.2
        | none => recordGet acc k := by
  intro segs
  induction segs with
  | nil => intro acc k; rfl
  | cons pair segs ih =>
    intro acc k
    rw [List.foldl_cons, ih, List.filterMap_cons, assignParam_eq_segParse]
    cases hseg : segParse pair with
    | none => rfl
    | some kv =>
      obtain ⟨k0, v0⟩ := kv
      rw [List.reverse_cons, List.find?_append]
      cases hf : (segs.filterMap segParse).reverse.find? (fun p => p.1 == k) with
      | some x => rfl
      | none =>
        rw [recordGet_set, Option.none_or]
        by_cases hk : k = k0
        · subst hk
          rw [if_pos rfl]
          simp [List.find?]
        · rw [if_neg hk]
          have hb : (k0 == k) = false := by
            simp only [beq_eq_false_iff_ne, ne_eq]
            exact fun hkk => hk hkk.symm
          simp [List.find?, hb]

/-- Claim C5: when decoding a parameter body, segments lacking a colon are
dropped (not an error), keys are trimmed with empty keys dropped, and for
duplicate keys the last occurrence wins: the decoded mapping agrees, at
every key, with the spec-side "last parsed segment with that key" reading
(`lastWins` over `segParse`, which drops colon-less and empty-key
segments). -/
theorem claim5_param_decoding (body : List Char) (k : String) :
    recordGet (parseParams body) k =
      lastWins ((splitOnChar ',' body).filterMap segParse) k := by
  rw [parseParams, lastWins, foldl_assignParam_lastWins]
  cases (List.filterMap segParse (splitOnChar ',' body)).reverse.find? (fun p => p.1 == k) with
  | some x => rfl
  | none => rfl

/-! ### Helper lemmas for the encode/decode round trip -/

theorem takeWhile_append_of (p : Char → Bool) :
    ∀ (l : List Char) (x : Char) (r : List Char), (∀ c ∈ l, p c = true) → p x = false →
      (l ++ x :: r).takeWhile p = l ∧ (l ++ x :: r).dropWhile p = x :: r := by
  intro l
  induction l with
  | nil =>
    intro x r _ hx
    constructor
    · rw [List.nil_append, List.takeWhile_cons, hx]
      simp
    · rw [List.nil_append, List.dropWhile_cons, hx]
      simp
  | cons c t ih =>
    intro x r hl hx
    have hc : p c = true := hl c (by simp)
    have ht := ih x r (fun d hd => hl d (by simp [hd])) hx
    constructor
    · rw [List.cons_append, List.takeWhile_cons, hc]
      simp only [if_true]
      rw [ht.1]
    · rw [List.cons_append, List.dropWhile_cons, hc]
      simp only [if_true]
      rw [ht.2]

theorem drop_length_takeWhile (p : Char → Bool) (l : List Char) :
    l.drop (l.takeWhile p).length = l.dropWhile p := by
  have h := List.takeWhile_append_dropWhile p l
  calc l.drop (l.takeWhile p).length
      = (l.takeWhile p ++ l.dropWhile p).drop (l.takeWhile p).length := by rw [h]
    _ = l.dropWhile p := List.drop_left _ _

theorem splitOnChar_no_sep (sep : Char) :
    ∀ l : List Char, (∀ c ∈ l, c ≠ sep) → splitOnChar sep l = [l] := by
  intro l
  induction l with
  | nil => intro _; rfl
  | cons c rest ih =>
    intro h
    rw [splitOnChar, if_neg (by simp [h c (by simp)]), ih (fun d hd => h d (by simp [hd]))]

theorem splitOnChar_append_sep (sep : Char) :
    ∀ (l r : List Char), (∀ c ∈ l, c ≠ sep) →
      splitOnChar sep (l ++ sep :: r) = l :: splitOnChar sep r := by
  intro l
  induction l with
  | nil =>
    intro r _
    rw [List.nil_append, splitOnChar, if_pos (by simp)]
  | cons c t ih =>
    intro r h
    rw [List.cons_append, splitOnChar, if_neg (by simp [h c (by simp)]),
      ih r (fun d hd => h d (by simp [hd]))]

/-- Spec-side joining of segments with a separator (inverse of `split`). -/
def joinSep (sep : Char) : List (List Char) → List Char
  | [] => []
  | [l] => l
  | l :: ls => l ++ sep :: joinSep sep ls

theorem splitOnChar_joinSep (sep : Char) :
    ∀ ls : List (List Char), ls ≠ [] → (∀ l ∈ ls, ∀ c ∈ l, c ≠ sep) →
      splitOnChar sep (joinSep sep ls) = ls := by
  intro ls
  induction ls with
  | nil => intro h; cases h rfl
  | cons l ls ih =>
    intro _ h
    cases ls with
    | nil => exact splitOnChar_no_sep sep l (h l (by simp))
    | cons l2 ls2 =>
      rw [show joinSep sep (l :: l2 :: ls2) = l ++ sep :: joinSep sep (l2 :: ls2) from rfl,
        splitOnChar_append_sep sep l _ (h l (by simp)),
        ih (by simp) (fun m hm => h m (by simp [hm]))]

theorem splitFirstColon_append (k rest : List Char) (hk : ∀ c ∈ k, c ≠ ':') :
    splitFirstColon (k ++ ':' :: rest) = some (k, rest) := by
  have h := takeWhile_append_of (fun c => !(c == ':')) k ':' rest
    (fun c hc => by simp [hk c hc]) (by simp)
  rw [splitFirstColon, h.2, h.1]

theorem containsSub_of_isPrefixOf (pat w : List Char) (h : pat.isPrefixOf w = true)
    (hw : w ≠ []) : containsSub pat w = true := by
  cases w with
  | nil => cases hw rfl
  | cons c rest => rw [containsSub, h, Bool.true_or]

/-- `pat` has no non-trivial border: no proper non-empty suffix of `pat` is
also a prefix of `pat`. For such patterns an occurrence of `pat` cannot
straddle the boundary between some text and a following copy of `pat`. -/
def noBorder (pat : List Char) : Prop :=
  ∀ j, j < pat.length → 0 < j → pat.drop j ≠ pat.take (pat.length - j)

instance (pat : List Char) : Decidable (noBorder pat) := by
  unfold noBorder
  infer_instance

theorem isPrefixOf_append_false (pat w r : List Char) (hnb : noBorder pat)
    (hw : w ≠ []) (hc : containsSub pat w = false) :
    pat.isPrefixOf (w ++ (pat ++ r)) = false := by
  by_contra hcon
  have hpre : pat <+: w ++ (pat ++ r) :=
    List.isPrefixOf_iff_prefix.mp (by simpa using hcon)
  obtain ⟨t, ht⟩ := hpre
  by_cases hlen : pat.length ≤ w.length
  · have hpw : pat = w.take pat.length := by
      have h1 : (pat ++ t).take pat.length = pat := List.take_left _ _
      rw [ht] at h1
      conv_lhs => rw [← h1]
      rw [List.take_append_of_le_length hlen]
    have : pat.isPrefixOf w = true := by
      rw [List.isPrefixOf_iff_prefix, hpw]
      exact List.take_prefix _ _
    rw [containsSub_of_isPrefixOf pat w this hw] at hc
    cases hc
  · push_neg at hlen
    have hwlen : 0 < w.length := List.length_pos.mpr hw
    have hpw : pat = w ++ pat.take (pat.length - w.length) := by
      have h1 : (pat ++ t).take pat.length = pat := List.take_left _ _
      rw [ht] at h1
      conv_lhs => rw [← h1]
      rw [List.take_append_eq_append_take,
        List.take_of_length_le (le_of_lt hlen),
        List.take_append_of_le_length (by omega)]
    have hdrop : pat.drop w.length = pat.take (pat.length - w.length) := by
      conv_lhs => rw [hpw]
      rw [List.drop_left]
    exact hnb w.length hlen hwlen hdrop

theorem removeAllF_id (pat : List Char) :
    ∀ (cs : List Char) (fuel : Nat), containsSub pat cs = false →
      removeAllF pat fuel cs = cs := by
  intro cs
  induction cs with
  | nil => intro fuel _; cases fuel <;> rfl
  | cons c rest ih =>
    intro fuel h
    rw [containsSub, Bool.or_eq_false_iff] at h
    cases fuel with
    | zero => rfl
    | succ f =>
      rw [removeAllF, if_neg (by intro hand; rw [hand.1] at h; exact absurd h.1 (by simp)),
        ih f h.2]

theorem removeAll_id (pat cs : List Char) (h : containsSub pat cs = false) :
    removeAll pat cs = cs :=
  removeAllF_id pat cs cs.length h

theorem removeAllF_nil (pat : List Char) (fuel : Nat) : removeAllF pat fuel [] = [] := by
  cases fuel <;> rfl

theorem removeAllF_strip (pat : List Char) (hnb : noBorder pat) :
    ∀ (v : List Char) (fuel : Nat), containsSub pat v = false → v.length < fuel →
      removeAllF pat fuel (v ++ pat) = v := by
  intro v
  induction v with
  | nil =>
    intro fuel hc hf
    have hne : pat ≠ [] := by
      intro hp
      rw [hp] at hc
      simp [containsSub] at hc
    cases fuel with
    | zero => omega
    | succ f =>
      rw [List.nil_append]
      cases hp : pat with
      | nil => cases hne hp
      | cons c pr =>
        subst hp
        rw [removeAllF, if_pos ⟨List.isPrefixOf_iff_prefix.mpr (List.prefix_refl _),
          List.cons_ne_nil c pr⟩, List.drop_length, removeAllF_nil]
  | cons c v ih =>
    intro fuel hc hf
    have hc2 : containsSub pat v = false := by
      rw [containsSub, Bool.or_eq_false_iff] at hc
      exact hc.2
    cases fuel with
    | zero => simp at hf
    | succ f =>
      have hnp : pat.isPrefixOf ((c :: v) ++ pat) = false := by
        have h0 := isPrefixOf_append_false pat (c :: v) [] hnb (by simp) hc
        rwa [List.append_nil] at h0
      rw [List.cons_append] at hnp
      rw [List.cons_append, removeAllF, if_neg (by simp [hnp])]
      have hlt : v.length < f := by
        simp only [List.length_cons] at hf
        omega
      rw [ih f hc2 hlt]

theorem removeAllF_head (pat rest : List Char) (f : Nat) (hne : pat ≠ []) :
    removeAllF pat (f + 1) (pat ++ rest) = removeAllF pat f ((pat ++ rest).drop pat.length) := by
  cases hp : pat with
  | nil => cases hne hp
  | cons c pr =>
    subst hp
    rw [List.cons_append, removeAllF,
      if_pos ⟨List.isPrefixOf_iff_prefix.mpr (List.prefix_append _ _), List.cons_ne_nil c pr⟩]

theorem removeAll_strip (pat v : List Char) (hnb : noBorder pat)
    (hne : pat ≠ []) (hc : containsSub pat v = false) :
    removeAll pat (pat ++ (v ++ pat)) = v := by
  obtain ⟨m, hm⟩ : ∃ m, pat.length = m + 1 := by
    have := List.length_pos.mpr hne
    exact ⟨pat.length - 1, by omega⟩
  have hlen : (pat ++ (v ++ pat)).length = ((v ++ pat).length + m) + 1 := by
    simp only [List.length_append]
    omega
  rw [removeAll, hlen, removeAllF_head pat (v ++ pat) _ hne, List.drop_left]
  apply removeAllF_strip pat hnb v _ hc
  simp only [List.length_append]
  omega

theorem jsTrim_fix (l : List Char)
    (h1 : ∀ c, l.head? = some c → isJsWhitespace c = false)
    (h2 : ∀ c, l.getLast? = some c → isJsWhitespace c = false) :
    jsTrim l = l := by
  have ha : l.dropWhile isJsWhitespace = l := by
    cases l with
    | nil => rfl
    | cons c r =>
      rw [List.dropWhile_cons, h1 c rfl]
      simp
  rw [jsTrim_eq_rdrop, ha, List.rdropWhile_eq_self_iff]
  intro hl
  have hlast := h2 (l.getLast hl) (List.getLast?_eq_getLast l hl)
  simp [hlast]

theorem escOpen_noBorder : noBorder escOpen := by decide

theorem escOpen_ne_nil : escOpen ≠ [] := by decide

theorem segValue_encode (v : List Char)
    (ho : containsSub escOpen v = false) (hcl : containsSub escClose v = false) :
    segValue (escOpen ++ (v ++ escOpen)) = v := by
  rw [segValue]
  have htrim : jsTrim (escOpen ++ (v ++ escOpen)) = escOpen ++ (v ++ escOpen) := by
    apply jsTrim_fix
    · intro c h
      have hh : (escOpen ++ (v ++ escOpen)).head? = some '<' := rfl
      rw [hh] at h
      cases h
      decide
    · intro c h
      have hh : (escOpen ++ (v ++ escOpen)).getLast? = some '>' := by
        rw [← List.head?_reverse, List.reverse_append, List.reverse_append,
          List.append_assoc]
        rfl
      rw [hh] at h
      cases h
      decide
  rw [htrim, removeAll_strip escOpen v escOpen_noBorder escOpen_ne_nil ho,
    removeAll_id escClose v hcl]

/-! ### Encoding (modelled from the spec wire format) and decode of encodes -/

theorem matchCallAt_encode (name body tail : List Char)
    (hn : name.isEmpty = false) (hw : ∀ c ∈ name, isWordChar c = true)
    (hb : ∀ c ∈ body, c ≠ '}') :
    matchCallAt (callHead ++ (name ++ ('{' :: (body ++ ('}' :: (endMarker ++ tail)))))) =
      some (name, body) := by
  have hA : callHead.isPrefixOf
      (callHead ++ (name ++ ('{' :: (body ++ ('}' :: (endMarker ++ tail)))))) = true :=
    List.isPrefixOf_iff_prefix.mpr (List.prefix_append _ _)
  have hE : endMarker.isPrefixOf (endMarker ++ tail) = true :=
    List.isPrefixOf_iff_prefix.mpr (List.prefix_append _ _)
  have ht1 := takeWhile_append_of isWordChar name '{'
    (body ++ ('}' :: (endMarker ++ tail))) hw (by decide)
  have ht2 := takeWhile_append_of (fun c => !(c == '}')) body '}' (endMarker ++ tail)
    (fun c hc => by simp [hb c hc]) (by simp)
  simp only [matchCallAt, hA, if_true, List.drop_left, ht1.1, hn, Bool.false_eq_true,
    if_false, ht2.1, hE]

/-- Modelled from the spec: the wire format of one parameter,
`KEY ":" "<escape>" VALUE "<escape>"`. -/
def encSeg (p : List Char × List Char) : List Char :=
  p.1 ++ ':' :: (escOpen ++ (p.2 ++ escOpen))

/-- Modelled from the spec: the comma-joined parameter list. -/
def encBody (ps : List (List Char × List Char)) : List Char :=
  joinSep ',' (ps.map encSeg)

/-- Modelled from the spec: the full wire format of a call span,
`"<start_function_call>" "call:" NAME "{" params? "}" "<end_function_call>"`,
built from a NAME and a key/value list (re-encoding side of the round trip). -/
def encodeCallL (nm : List Char) (ps : List (List Char × List Char)) : List Char :=
  callHead ++ (nm ++ ('{' :: (encBody ps ++ ('}' :: endMarker))))

/-- The wire format as a `String` (input to `parseToolCall`). -/
def encodeCall (nm : List Char) (ps : List (List Char × List Char)) : String :=
  String.mk (encodeCallL nm ps)

/-- What the decoder recovers from one well-formed encoded pair: the trimmed
key and the raw value. -/
def decPair (p : List Char × List Char) : String × String :=
  (String.mk (jsTrim p.1), String.mk p.2)

/-- Well-formedness of one key/value pair per the claim: the key contains no
colon, comma or closing brace (the grammar's KEY cannot) and is non-empty
after trimming; the value contains no comma, no closing brace and no escape
marker (either spelling). -/
def PairOk (p : List Char × List Char) : Prop :=
  (∀ c ∈ p.1, c ≠ ':' ∧ c ≠ ',' ∧ c ≠ '}') ∧
  jsTrim p.1 ≠ [] ∧
  (∀ c ∈ p.2, c ≠ ',' ∧ c ≠ '}') ∧
  containsSub escOpen p.2 = false ∧ containsSub escClose p.2 = false

instance (p : List Char × List Char) : Decidable (PairOk p) := by
  unfold PairOk
  infer_instance

/-- Well-formedness of a whole call per the claim: NAME is a non-empty run
of word characters, every pair is well-formed, and the (trimmed) keys are
distinct. -/
def WfCall (nm : List Char) (ps : List (List Char × List Char)) : Prop :=
  nm ≠ [] ∧ (∀ c ∈ nm, isWordChar c = true) ∧ (∀ p ∈ ps, PairOk p) ∧
  ((ps.map decPair).map Prod.fst).Nodup

instance (nm : List Char) (ps : List (List Char × List Char)) : Decidable (WfCall nm ps) := by
  unfold WfCall
  infer_instance

theorem mem_joinSep (sep : Char) :
    ∀ (ls : List (List Char)) (c : Char), c ∈ joinSep sep ls → c = sep ∨ ∃ l ∈ ls, c ∈ l := by
  intro ls
  induction ls with
  | nil => intro c hc; cases hc
  | cons l ls ih =>
    intro c hc
    cases ls with
    | nil =>
      right
      exact ⟨l, by simp, hc⟩
    | cons l2 ls2 =>
      rw [show joinSep sep (l :: l2 :: ls2) = l ++ sep :: joinSep sep (l2 :: ls2) from rfl] at hc
      rcases List.mem_append.mp hc with h | h
      · exact Or.inr ⟨l, by simp, h⟩
      · rcases List.mem_cons.mp h with h | h
        · exact Or.inl h
        · rcases ih c h with h | ⟨m, hm, hcm⟩
          · exact Or.inl h
          · exact Or.inr ⟨m, by simp [hm], hcm⟩

theorem mem_encSeg (p : List Char × List Char) (c : Char) (hc : c ∈ encSeg p) :
    c ∈ p.1 ∨ c = ':' ∨ c ∈ escOpen ∨ c ∈ p.2 := by
  rw [encSeg] at hc
  rcases List.mem_append.mp hc with h | h
  · exact Or.inl h
  · rcases List.mem_cons.mp h with h | h
    · exact Or.inr (Or.inl h)
    · rcases List.mem_append.mp h with h | h
      · exact Or.inr (Or.inr (Or.inl h))
      · rcases List.mem_append.mp h with h | h
        · exact Or.inr (Or.inr (Or.inr h))
        · exact Or.inr (Or.inr (Or.inl h))

theorem encSeg_ne_nil (p : List Char × List Char) : encSeg p ≠ [] := by
  rw [encSeg]
  cases h : p.1 <;> simp

theorem encSeg_no_comma (p : List Char × List Char) (hp : PairOk p) :
    ∀ c ∈ encSeg p, c ≠ ',' := by
  intro c hc
  rcases mem_encSeg p c hc with h | h | h | h
  · exact (hp.1 c h).2.1
  · subst h; decide
  · intro he; subst he; revert h; decide
  · exact (hp.2.2.1 c h).1

theorem encSeg_no_brace (p : List Char × List Char) (hp : PairOk p) :
    ∀ c ∈ encSeg p, c ≠ '}' := by
  intro c hc
  rcases mem_encSeg p c hc with h | h | h | h
  · exact (hp.1 c h).2.2
  · subst h; decide
  · intro he; subst he; revert h; decide
  · exact (hp.2.2.1 c h).2

theorem encBody_no_brace (ps : List (List Char × List Char))
    (hok : ∀ p ∈ ps, PairOk p) : ∀ c ∈ encBody ps, c ≠ '}' := by
  intro c hc
  rcases mem_joinSep ',' _ c hc with h | ⟨l, hl, hcl⟩
  · subst h; decide
  · obtain ⟨p, hp, rfl⟩ := List.mem_map.mp hl
    exact encSeg_no_brace p (hok p hp) c hcl

theorem assignParam_encSeg (acc : List (String × String)) (p : List Char × List Char)
    (hp : PairOk p) :
    assignParam acc (encSeg p) = recordSet acc (String.mk (jsTrim p.1)) (String.mk p.2) := by
  have hcolon : splitFirstColon (p.1 ++ ':' :: (escOpen ++ (p.2 ++ escOpen))) =
      some (p.1, escOpen ++ (p.2 ++ escOpen)) :=
    splitFirstColon_append p.1 _ (fun c hc => (hp.1 c hc).1)
  have hkey : (jsTrim p.1).isEmpty = false := by
    simpa [List.isEmpty_iff] using hp.2.1
  rw [assignParam, show encSeg p = p.1 ++ ':' :: (escOpen ++ (p.2 ++ escOpen)) from rfl,
    hcolon]
  simp only [hkey, Bool.false_eq_true, if_false,
    segValue_encode p.2 hp.2.2.2.1 hp.2.2.2.2]

theorem foldl_assignParam_encode :
    ∀ (ps : List (List Char × List Char)) (acc : List (String × String)),
      (∀ p ∈ ps, PairOk p) →
      ((ps.map decPair).map Prod.fst).Nodup →
      (∀ s ∈ (ps.map decPair).map Prod.fst, acc.any (fun q => q.1 == s) = false) →
      (ps.map encSeg).foldl assignParam acc = acc ++ ps.map decPair := by
  intro ps
  induction ps with
  | nil => intro acc _ _ _; simp
  | cons p ps ih =>
    intro acc hok hnd hacc
    rw [List.map_cons, List.foldl_cons, assignParam_encSeg acc p (hok p (by simp))]
    have hnew : acc.any (fun q => q.1 == String.mk (jsTrim p.1)) = false :=
      hacc (String.mk (jsTrim p.1)) (by simp [decPair])
    have hset : recordSet acc (String.mk (jsTrim p.1)) (String.mk p.2) = acc ++ [decPair p] := by
      rw [recordSet, if_neg (by simp [hnew])]
      rfl
    rw [List.map_cons, List.map_cons] at hnd
    rw [List.nodup_cons] at hnd
    rw [hset, ih (acc ++ [decPair p]) (fun q hq => hok q (by simp [hq])) hnd.2 ?_]
    · simp
    · intro s hs
      rw [List.any_append]
      have h1 : acc.any (fun q => q.1 == s) = false :=
        hacc s (by rw [List.map_cons, List.map_cons]; exact List.mem_cons_of_mem _ hs)
      have h2 : ((decPair p).1 == s) = false := by
        simp only [beq_eq_false_iff_ne, ne_eq]
        intro he
        exact hnd.1 (he ▸ hs)
      simp [h1, h2, decPair]
      intro he
      exact absurd (show ((decPair p).1 == s) = true by simp [decPair, he]) (by simp [h2])

theorem encBody_cons_isEmpty (p : List Char × List Char) (ps' : List (List Char × List Char)) :
    (encBody (p :: ps')).isEmpty = false := by
  rw [encBody, List.map_cons]
  cases hm : ps'.map encSeg with
  | nil =>
    rw [show joinSep ',' [encSeg p] = encSeg p from rfl]
    simpa [List.isEmpty_iff] using encSeg_ne_nil p
  | cons l ls =>
    rw [show joinSep ',' (encSeg p :: l :: ls) = encSeg p ++ ',' :: joinSep ',' (l :: ls) from rfl]
    simp [List.isEmpty_iff]

theorem parseToolCall_encode (nm : List Char) (ps : List (List Char × List Char))
    (hwf : WfCall nm ps) :
    parseToolCall (encodeCall nm ps) =
      some { name := String.mk nm, parameters := ps.map decPair } := by
  obtain ⟨hnm, hw, hok, hnd⟩ := hwf
  have hm : matchCallAt (encodeCallL nm ps) = some (nm, encBody ps) := by
    rw [show encodeCallL nm ps =
        callHead ++ (nm ++ ('{' :: (encBody ps ++ ('}' :: (endMarker ++ []))))) by
      rw [encodeCallL, List.append_nil]]
    exact matchCallAt_encode nm (encBody ps) []
      (by simpa [List.isEmpty_iff] using hnm) hw (encBody_no_brace ps hok)
  have hfind : findCallMatch (encodeCallL nm ps) = some (nm, encBody ps) := by
    rw [show encodeCallL nm ps =
        '<' :: ("start_function_call>call:".toList ++ (nm ++ ('{' :: (encBody ps ++ ('}' :: endMarker))))) from rfl,
      findCallMatch]
    rw [show matchCallAt
        ('<' :: ("start_function_call>call:".toList ++ (nm ++ ('{' :: (encBody ps ++ ('}' :: endMarker)))))) =
        some (nm, encBody ps) from hm]
  rw [parseToolCall,
    show (encodeCall nm ps).toList = encodeCallL nm ps from rfl, hfind]
  cases ps with
  | nil => rfl
  | cons p ps' =>
    simp only [encBody_cons_isEmpty p ps', Bool.false_eq_true, if_false]
    rw [parseParams, show encBody (p :: ps') = joinSep ',' ((p :: ps').map encSeg) from rfl,
      splitOnChar_joinSep ',' ((p :: ps').map encSeg) (by simp)
        (by
          intro l hl c hc
          obtain ⟨q, hq, rfl⟩ := List.mem_map.mp hl
          exact encSeg_no_comma q (hok q hq) c hc),
      foldl_assignParam_encode (p :: ps') [] hok hnd (by intro s _; rfl)]
    rfl

theorem mem_jsTrim (l : List Char) (c : Char) (hc : c ∈ jsTrim l) : c ∈ l := by
  rw [jsTrim, List.mem_reverse] at hc
  have hc2 : c ∈ (l.dropWhile isJsWhitespace).reverse :=
    List.Sublist.mem hc (List.dropWhile_sublist _)
  rw [List.mem_reverse] at hc2
  exact List.Sublist.mem hc2 (List.dropWhile_sublist _)

theorem recordGet_perm (l₁ l₂ : List (String × String)) (h : l₁.Perm l₂)
    (hn : (l₁.map Prod.fst).Nodup) (k : String) :
    recordGet l₁ k = recordGet l₂ k := by
  induction h with
  | nil => rfl
  | cons x h ih =>
    rw [List.map_cons, List.nodup_cons] at hn
    rw [recordGet, recordGet, ih hn.2]
  | swap x y l =>
    rw [List.map_cons, List.map_cons, List.nodup_cons, List.mem_cons] at hn
    simp only [recordGet]
    by_cases hy : (y.1 == k) = true
    · by_cases hx : (x.1 == k) = true
      · exfalso
        apply hn.1
        left
        rw [beq_iff_eq] at hy hx
        rw [hy, hx]
      · rw [if_pos hy, if_neg hx, if_pos hy]
    · by_cases hx : (x.1 == k) = true
      · rw [if_neg hy, if_pos hx, if_pos hx]
      · rw [if_neg hy, if_neg hx, if_neg hx, if_neg hy]
  | trans h₁ h₂ ih₁ ih₂ =>
    have hn2 := ((h₁.map Prod.fst).nodup_iff).mp hn
    rw [ih₁ hn, ih₂ hn2]

/-- Claim C2: for every well-formed input matching the call grammar (NAME of
word characters; a flat comma-separated list of `KEY:<escape>VALUE<escape>`
pairs whose trimmed keys are distinct and non-empty and whose values contain
no comma, no closing brace and no escape marker), decoding the wire string
recovers the call (trimmed keys, raw values), and re-encoding the decoded
call in any parameter order yields a wire string that decodes to an
equivalent call: equal name and equal key-to-value mapping, independent of
parameter order. -/
theorem claim2_decode_reencode (nm : List Char) (ps : List (List Char × List Char))
    (perm : List (String × String))
    (hwf : WfCall nm ps)
    (hperm : perm.Perm (ps.map decPair)) :
    parseToolCall (encodeCall nm ps) =
      some { name := String.mk nm, parameters := ps.map decPair } ∧
    parseToolCall (encodeCall nm (perm.map fun kv => (kv.1.toList, kv.2.toList))) =
      some { name := String.mk nm, parameters := perm } ∧
    ∀ k, recordGet perm k = recordGet (ps.map decPair) k := by
  obtain ⟨hnm, hw, hok, hnd⟩ := hwf
  have hpermnd : (perm.map Prod.fst).Nodup :=
    ((hperm.map Prod.fst).nodup_iff).mpr hnd
  have hmem : ∀ kv ∈ perm, ∃ q ∈ ps, decPair q = kv := by
    intro kv hkv
    obtain ⟨q, hq, he⟩ := List.mem_map.mp (hperm.subset hkv)
    exact ⟨q, hq, he⟩
  have hpt : ∀ kv ∈ perm, decPair (kv.1.toList, kv.2.toList) = kv := by
    intro kv hkv
    obtain ⟨q, hq, rfl⟩ := hmem kv hkv
    show (String.mk (jsTrim (jsTrim q.1)), String.mk q.2) =
      (String.mk (jsTrim q.1), String.mk q.2)
    rw [jsTrim_idem]
  have hdec : (perm.map fun kv => (kv.1.toList, kv.2.toList)).map decPair = perm := by
    rw [List.map_map]
    calc perm.map (decPair ∘ fun kv => (kv.1.toList, kv.2.toList))
        = perm.map id := List.map_congr_left (fun a ha => hpt a ha)
      _ = perm := List.map_id _
  have hok2 : ∀ p ∈ perm.map (fun kv => (kv.1.toList, kv.2.toList)), PairOk p := by
    intro p hp
    obtain ⟨kv, hkv, rfl⟩ := List.mem_map.mp hp
    obtain ⟨q, hq, rfl⟩ := hmem kv hkv
    have hq' := hok q hq
    refine ⟨?_, ?_, hq'.2.2.1, hq'.2.2.2.1, hq'.2.2.2.2⟩
    · intro c hc
      exact hq'.1 c (mem_jsTrim q.1 c hc)
    · show jsTrim (jsTrim q.1) ≠ []
      rw [jsTrim_idem]
      exact hq'.2.1
  refine ⟨parseToolCall_encode nm ps ⟨hnm, hw, hok, hnd⟩, ?_, ?_⟩
  · have h2 := parseToolCall_encode nm (perm.map fun kv => (kv.1.toList, kv.2.toList))
      ⟨hnm, hw, hok2, by rw [hdec]; exact hpermnd⟩
    rw [hdec] at h2
    exact h2
  · intro k
    exact recordGet_perm perm (ps.map decPair) hperm hpermnd k

theorem claim2_decode_reencode_witness :
    parseToolCall (encodeCall "show_notification".toList
      [("title".toList, "Hello".toList), ("message".toList, "Hi there".toList)]) =
      some { name := "show_notification", parameters := [("title", "Hello"), ("message", "Hi there")] } ∧
    parseToolCall (encodeCall "show_notification".toList
      [("message".toList, "Hi there".toList), ("title".toList, "Hello".toList)]) =
      some { name := "show_notification", parameters := [("message", "Hi there"), ("title", "Hello")] } :=
  ⟨(claim2_decode_reencode "show_notification".toList
      [("title".toList, "Hello".toList), ("message".toList, "Hi there".toList)]
      [("message", "Hi there"), ("title", "Hello")] (by decide) (by decide)).1,
   (claim2_decode_reencode "show_notification".toList
      [("title".toList, "Hello".toList), ("message".toList, "Hi there".toList)]
      [("message", "Hi there"), ("title", "Hello")] (by decide) (by decide)).2.1⟩

/-! ### Claim C10 (all spans removed) -/

theorem startMarker_head_mismatch (c : Char) (cs : List Char) (hc : c ≠ '<') :
    startMarker.isPrefixOf (c :: cs) = false := by
  rw [show startMarker = '<' :: "start_function_call>".toList from rfl, List.isPrefixOf]
  simp only [Bool.and_eq_false_iff, beq_eq_false_iff_ne, ne_eq]
  left
  exact fun h => hc h.symm

theorem endMarker_head_mismatch (c : Char) (cs : List Char) (hc : c ≠ '<') :
    endMarker.isPrefixOf (c :: cs) = false := by
  rw [show endMarker = '<' :: "end_function_call>".toList from rfl, List.isPrefixOf]
  simp only [Bool.and_eq_false_iff, beq_eq_false_iff_ne, ne_eq]
  left
  exact fun h => hc h.symm

theorem callHead_head_mismatch (c : Char) (cs : List Char) (hc : c ≠ '<') :
    callHead.isPrefixOf (c :: cs) = false := by
  rw [show callHead = '<' :: "start_function_call>call:".toList from rfl, List.isPrefixOf]
  simp only [Bool.and_eq_false_iff, beq_eq_false_iff_ne, ne_eq]
  left
  exact fun h => hc h.symm

theorem wordChar_facts (c : Char) (h : isWordChar c = true) :
    c ≠ '<' ∧ lineTerm c = false := by
  constructor
  · intro he
    subst he
    exact absurd h (by decide)
  · cases hl : lineTerm c with
    | false => rfl
    | true =>
      exfalso
      rw [lineTerm] at hl
      simp only [Bool.or_eq_true, beq_iff_eq] at hl
      rcases hl with ((rfl | rfl) | rfl) | rfl <;> exact absurd h (by decide)

theorem findEnd_through (b rest : List Char)
    (h : ∀ c ∈ b, c ≠ '<' ∧ lineTerm c = false) :
    findEnd (b ++ (endMarker ++ rest)) = some rest := by
  induction b with
  | nil =>
    rw [List.nil_append,
      show endMarker ++ rest = '<' :: ("end_function_call>".toList ++ rest) from rfl,
      findEnd]
    have hp : endMarker.isPrefixOf ('<' :: ("end_function_call>".toList ++ rest)) = true :=
      List.isPrefixOf_iff_prefix.mpr (List.prefix_append _ _)
    rw [hp, if_pos rfl]
    rw [show ('<' :: ("end_function_call>".toList ++ rest)).drop endMarker.length =
      (endMarker ++ rest).drop endMarker.length from rfl, List.drop_left]
  | cons c b' ih =>
    have hc := h c (by simp)
    rw [List.cons_append, findEnd,
      if_neg (by simp [endMarker_head_mismatch c _ hc.1]),
      if_neg (by simp [hc.2])]
    exact ih (fun d hd => h d (by simp [hd]))

theorem removeCallSpansF_skip (u : List Char) (hu : ∀ c ∈ u, c ≠ '<') :
    ∀ (rest : List Char) (fuel : Nat),
      removeCallSpansF (u.length + fuel) (u ++ rest) = u ++ removeCallSpansF fuel rest := by
  induction u with
  | nil => intro rest fuel; simp
  | cons c u' ih =>
    intro rest fuel
    have hc := hu c (by simp)
    rw [List.cons_append, List.length_cons,
      show u'.length + 1 + fuel = (u'.length + fuel) + 1 by omega,
      removeCallSpansF, if_neg (by simp [startMarker_head_mismatch c _ hc]),
      ih (fun d hd => hu d (by simp [hd])) rest fuel, List.cons_append]

/-- A grammar-matching call span (used to state the amended claim C10). -/
def mkSpan (n b : List Char) : List Char :=
  callHead ++ (n ++ ('{' :: (b ++ ('}' :: endMarker))))

theorem mkSpan_split (n b rest : List Char) :
    mkSpan n b ++ rest =
      startMarker ++ (("call:".toList ++ (n ++ ('{' :: (b ++ ['}'])))) ++ (endMarker ++ rest)) := by
  rw [mkSpan, show callHead = startMarker ++ "call:".toList from rfl]
  simp [List.append_assoc]

theorem removeCallSpansF_span (n b rest : List Char) (fuel : Nat)
    (hw : ∀ c ∈ n, isWordChar c = true)
    (hb : ∀ c ∈ b, c ≠ '<' ∧ lineTerm c = false) :
    removeCallSpansF (fuel + 1) (mkSpan n b ++ rest) = removeCallSpansF fuel rest := by
  have hinner : ∀ c ∈ "call:".toList ++ (n ++ ('{' :: (b ++ ['}']))),
      c ≠ '<' ∧ lineTerm c = false := by
    intro c hc
    rcases List.mem_append.mp hc with h | h
    · exact (show ∀ c ∈ "call:".toList, c ≠ '<' ∧ lineTerm c = false by decide) c h
    · rcases List.mem_append.mp h with h | h
      · exact wordChar_facts c (hw c h)
      · rcases List.mem_cons.mp h with rfl | h
        · exact ⟨by decide, by decide⟩
        · rcases List.mem_append.mp h with h | h
          · exact hb c h
          · rcases List.mem_cons.mp h with rfl | h
            · exact ⟨by decide, by decide⟩
            · cases h
  rw [mkSpan_split,
    show startMarker ++ (("call:".toList ++ (n ++ ('{' :: (b ++ ['}'])))) ++ (endMarker ++ rest)) =
      '<' :: ("start_function_call>".toList ++
        (("call:".toList ++ (n ++ ('{' :: (b ++ ['}'])))) ++ (endMarker ++ rest))) from rfl,
    removeCallSpansF]
  have hp : startMarker.isPrefixOf
      ('<' :: ("start_function_call>".toList ++
        (("call:".toList ++ (n ++ ('{' :: (b ++ ['}'])))) ++ (endMarker ++ rest)))) = true :=
    List.isPrefixOf_iff_prefix.mpr (List.prefix_append _ _)
  rw [hp, if_pos rfl]
  have hfe : findEnd (('<' :: ("start_function_call>".toList ++
      (("call:".toList ++ (n ++ ('{' :: (b ++ ['}'])))) ++ (endMarker ++ rest)))).drop
        startMarker.length) = some rest := by
    rw [show ('<' :: ("start_function_call>".toList ++
        (("call:".toList ++ (n ++ ('{' :: (b ++ ['}'])))) ++ (endMarker ++ rest)))).drop
          startMarker.length =
      (startMarker ++ (("call:".toList ++ (n ++ ('{' :: (b ++ ['}'])))) ++ (endMarker ++ rest))).drop
          startMarker.length from rfl, List.drop_left]
    exact findEnd_through _ rest hinner
  rw [hfe]

theorem removeCallSpansF_congr :
    ∀ (f1 : Nat) (cs : List Char) (f2 : Nat), cs.length ≤ f1 → cs.length ≤ f2 →
      removeCallSpansF f1 cs = removeCallSpansF f2 cs := by
  intro f1
  induction f1 with
  | zero =>
    intro cs f2 h1 _
    have : cs = [] := List.eq_nil_of_length_eq_zero (by omega)
    subst this
    cases f2 <;> rfl
  | succ f ih =>
    intro cs f2 h1 h2
    cases cs with
    | nil => cases f2 <;> rfl
    | cons c rest =>
      cases f2 with
      | zero => simp at h2
      | succ f2' =>
        simp only [List.length_cons] at h1 h2
        rw [removeCallSpansF, removeCallSpansF]
        by_cases hp : startMarker.isPrefixOf (c :: rest)
        · rw [if_pos hp, if_pos hp]
          cases hfe : findEnd ((c :: rest).drop startMarker.length) with
          | some r2 =>
            have hlen := findEnd_length _ _ hfe
            have hs : startMarker.length = 21 := rfl
            simp only [List.length_drop, List.length_cons, hs] at hlen
            exact ih r2 f2' (by omega) (by omega)
          | none =>
            rw [ih rest f2' (by omega) (by omega)]
        · rw [if_neg hp, if_neg hp, ih rest f2' (by omega) (by omega)]

theorem removeCallSpansF_skip_le (u rest : List Char) (hu : ∀ c ∈ u, c ≠ '<')
    (fuel : Nat) (hf : u.length + rest.length ≤ fuel) :
    removeCallSpansF fuel (u ++ rest) = u ++ removeCallSpansF rest.length rest := by
  rw [removeCallSpansF_congr fuel (u ++ rest) (u.length + rest.length)
      (by simpa using hf) (by simp),
    removeCallSpansF_skip u hu rest rest.length]

theorem removeCallSpansF_span_le (n b rest : List Char)
    (hw : ∀ c ∈ n, isWordChar c = true)
    (hb : ∀ c ∈ b, c ≠ '<' ∧ lineTerm c = false)
    (fuel : Nat) (hf : (mkSpan n b ++ rest).length ≤ fuel) :
    removeCallSpansF fuel (mkSpan n b ++ rest) = removeCallSpansF rest.length rest := by
  have hsl : (mkSpan n b).length = 47 + (n.length + b.length) := by
    have h1 : callHead.length = 26 := rfl
    have h2 : endMarker.length = 19 := rfl
    rw [mkSpan]
    simp only [List.length_append, List.length_cons, h1, h2]
    omega
  have hfl : (mkSpan n b ++ rest).length = 47 + (n.length + b.length) + rest.length := by
    rw [List.length_append, hsl]
  rw [removeCallSpansF_congr fuel (mkSpan n b ++ rest) ((rest.length + 46 + n.length + b.length) + 1)
      (by omega) (by omega),
    removeCallSpansF_span n b rest _ hw hb,
    removeCallSpansF_congr _ rest rest.length (by omega) (by omega)]

theorem findCallMatch_skip (u : List Char) (hu : ∀ c ∈ u, c ≠ '<') :
    ∀ rest : List Char, findCallMatch (u ++ rest) = findCallMatch rest := by
  induction u with
  | nil => intro rest; rfl
  | cons c u' ih =>
    intro rest
    have hc := hu c (by simp)
    rw [List.cons_append, findCallMatch,
      show matchCallAt (c :: (u' ++ rest)) = none by
        rw [matchCallAt, if_neg (by simp [callHead_head_mismatch c _ hc])],
      ih (fun d hd => hu d (by simp [hd])) rest]

theorem matchCallAt_mkSpan (n b rest : List Char)
    (hn : n.isEmpty = false) (hw : ∀ c ∈ n, isWordChar c = true)
    (hb : ∀ c ∈ b, c ≠ '}') :
    matchCallAt (mkSpan n b ++ rest) = some (n, b) := by
  rw [show mkSpan n b ++ rest =
      callHead ++ (n ++ ('{' :: (b ++ ('}' :: (endMarker ++ rest))))) by
    rw [mkSpan]; simp [List.append_assoc]]
  exact matchCallAt_encode n b rest hn hw hb

theorem findCallMatch_mkSpan (n b rest : List Char)
    (hn : n.isEmpty = false) (hw : ∀ c ∈ n, isWordChar c = true)
    (hb : ∀ c ∈ b, c ≠ '}') :
    findCallMatch (mkSpan n b ++ rest) = some (n, b) := by
  have hm := matchCallAt_mkSpan n b rest hn hw hb
  rw [show mkSpan n b ++ rest =
      '<' :: (("start_function_call>call:".toList ++ (n ++ ('{' :: (b ++ ('}' :: endMarker))))) ++ rest)
      from rfl] at hm ⊢
  rw [findCallMatch, hm]

set_option maxRecDepth 4096 in
/-- The code violates the claim: the span-removal regex `.*?` does not match
line terminators, so a call span whose parameter body contains a newline is
left in the prose output even though `parseToolCall` decodes it (the decode
regex class `[^}]*` does match newlines). -/
theorem claim10_counterexample :
    parseToolCall "<start_function_call>call:a\x7bx:<escape>1\n2<escape>\x7d<end_function_call> and <start_function_call>call:b\x7b\x7d<end_function_call>" =
      some { name := "a", parameters := [("x", "1\n2")] } ∧
    extractNonToolText "<start_function_call>call:a\x7bx:<escape>1\n2<escape>\x7d<end_function_call> and <start_function_call>call:b\x7b\x7d<end_function_call>" =
      "<start_function_call>call:a\x7bx:<escape>1\n2<escape>\x7d<end_function_call> and" := by
  constructor <;> decide

theorem removeCallSpansF_all_skip (u : List Char) (hu : ∀ c ∈ u, c ≠ '<') :
    removeCallSpansF u.length u = u := by
  have h := removeCallSpansF_skip u hu [] 0
  have h2 : removeCallSpansF 0 ([] : List Char) = [] := rfl
  simpa [h2] using h

/-- Claim C10 (amended): `extractNonToolText` removes every non-overlapping
call span whose interior contains no line terminator, not only the first
one; spans containing a line terminator between the markers are left in
place (see `claim10_counterexample`). Formalised for a response decomposed
as prose/span/prose/span/prose where the prose parts contain no `<` (so the
spans are the only marker occurrences) and the call bodies contain no `}`,
no `<` and no line terminator: both spans are removed and the surrounding
prose is kept (then trimmed), while decode still honours only the first
call. -/
theorem claim10_remove_all_spans (pre mid post n1 b1 n2 b2 : List Char)
    (hpre : ∀ c ∈ pre, c ≠ '<') (hmid : ∀ c ∈ mid, c ≠ '<') (hpost : ∀ c ∈ post, c ≠ '<')
    (hn1 : n1.isEmpty = false) (hw1 : ∀ c ∈ n1, isWordChar c = true)
    (hw2 : ∀ c ∈ n2, isWordChar c = true)
    (hb1 : ∀ c ∈ b1, c ≠ '}' ∧ c ≠ '<' ∧ lineTerm c = false)
    (hb2 : ∀ c ∈ b2, c ≠ '}' ∧ c ≠ '<' ∧ lineTerm c = false) :
    extractNonToolText (String.mk (pre ++ (mkSpan n1 b1 ++ (mid ++ (mkSpan n2 b2 ++ post))))) =
      String.mk (jsTrim (pre ++ (mid ++ post))) ∧
    parseToolCall (String.mk (pre ++ (mkSpan n1 b1 ++ (mid ++ (mkSpan n2 b2 ++ post))))) =
      parseToolCall (String.mk (mkSpan n1 b1)) := by
  constructor
  · have e1 : removeCallSpans (pre ++ (mkSpan n1 b1 ++ (mid ++ (mkSpan n2 b2 ++ post)))) =
        pre ++ (mid ++ post) := by
      rw [removeCallSpans,
        removeCallSpansF_skip_le pre (mkSpan n1 b1 ++ (mid ++ (mkSpan n2 b2 ++ post))) hpre
          (pre ++ (mkSpan n1 b1 ++ (mid ++ (mkSpan n2 b2 ++ post)))).length (by simp),
        removeCallSpansF_span_le n1 b1 (mid ++ (mkSpan n2 b2 ++ post)) hw1
          (fun c hc => (hb1 c hc).2)
          (mkSpan n1 b1 ++ (mid ++ (mkSpan n2 b2 ++ post))).length (le_refl _),
        removeCallSpansF_skip_le mid (mkSpan n2 b2 ++ post) hmid
          (mid ++ (mkSpan n2 b2 ++ post)).length (by simp),
        removeCallSpansF_span_le n2 b2 post hw2 (fun c hc => (hb2 c hc).2)
          (mkSpan n2 b2 ++ post).length (le_refl _),
        removeCallSpansF_all_skip post hpost]
    show String.mk (jsTrim (removeCallSpans
      (pre ++ (mkSpan n1 b1 ++ (mid ++ (mkSpan n2 b2 ++ post)))))) = _
    rw [e1]
  · have f1 : findCallMatch (pre ++ (mkSpan n1 b1 ++ (mid ++ (mkSpan n2 b2 ++ post)))) =
        some (n1, b1) := by
      rw [findCallMatch_skip pre hpre]
      exact findCallMatch_mkSpan n1 b1 _ hn1 hw1 (fun c hc => (hb1 c hc).1)
    have f2 : findCallMatch (mkSpan n1 b1) = some (n1, b1) := by
      have h := findCallMatch_mkSpan n1 b1 [] hn1 hw1 (fun c hc => (hb1 c hc).1)
      simpa using h
    have f1' : findCallMatch
        ((String.mk (pre ++ (mkSpan n1 b1 ++ (mid ++ (mkSpan n2 b2 ++ post))))).toList) =
        some (n1, b1) := f1
    have f2' : findCallMatch ((String.mk (mkSpan n1 b1)).toList) = some (n1, b1) := f2
    rw [parseToolCall, parseToolCall, f1', f2']

theorem claim10_remove_all_spans_witness :
    extractNonToolText (String.mk ("Sure! ".toList ++ (mkSpan "a".toList "x:1".toList ++
        (" and ".toList ++ (mkSpan "b".toList [] ++ " done ".toList))))) =
      String.mk (jsTrim ("Sure! ".toList ++ (" and ".toList ++ " done ".toList))) ∧
    parseToolCall (String.mk ("Sure! ".toList ++ (mkSpan "a".toList "x:1".toList ++
        (" and ".toList ++ (mkSpan "b".toList [] ++ " done ".toList))))) =
      parseToolCall (String.mk (mkSpan "a".toList "x:1".toList)) :=
  claim10_remove_all_spans "Sure! ".toList " and ".toList " done ".toList
    "a".toList "x:1".toList "b".toList []
    (by decide) (by decide) (by decide) (by decide) (by decide) (by decide)
    (by decide) (by decide)
